import Mathlib

/-!
Verification of the Mapping Builder of `generate_mapping.py`
(Women-Safety-Community-Well-Being-Survey repository).

The script reads spreadsheet rows of five cells each and builds an ordered
mapping from police-station name to the list of its areas/villages, trimming
whitespace and deduplicating areas case-insensitively while keeping the
first-seen spelling.

Shallow embedding choices:
* a spreadsheet cell value (`None`, a text cell, or any non-text value such
  as a number) is a `Cell`;
* a row is a structure of five cells, mirroring the tuple unpacked by
  `s_no, ps_s_no, sub_div, ps_name, area = row`;
* Python's `str.strip` and `str.lower` are `pyStrip` and `pyLower` over the
  character list of a string;
* the insertion-ordered `dict[str, list[str]]` is an association list
  `List (String × List String)`; `dict.setdefault` and the in-place
  `list.append` become `setdefault` and `mappend`;
* the loop body of `build_mapping` is the fold step `processRow`;
  `build_mapping` takes the list of data rows (everything from spreadsheet
  row 2 on, as produced by `iter_rows(min_row=2)`) and, like the source,
  skips the first of them (`for row in data_rows[1:]`), the column-header
  row.  Workbook loading itself is I/O and is not modelled.
-/

/-- A spreadsheet cell value as seen by the loop: Python `None`, a text
value, or a non-text value (e.g. a number). -/
inductive Cell where
  | none : Cell
  | str (s : String) : Cell
  | other : Cell
deriving DecidableEq

/-- One spreadsheet row, the five cells unpacked by
`s_no, ps_s_no, sub_div, ps_name, area = row`. -/
structure Row where
  s_no : Cell
  ps_s_no : Cell
  sub_div : Cell
  ps_name : Cell
  area : Cell
deriving DecidableEq

/-- Python `str.strip()` on the underlying character list: drop whitespace
from the front, then from the back. -/
def stripChars (l : List Char) : List Char :=
  ((l.dropWhile Char.isWhitespace).reverse.dropWhile Char.isWhitespace).reverse

/-- Python `str.strip()`. -/
def pyStrip (s : String) : String := ⟨stripChars s.data⟩

/-- Python `str.lower()`: character-wise lowercasing. -/
def pyLower (s : String) : String := ⟨s.data.map Char.toLower⟩

/-- The insertion-ordered mapping `dict[str, list[str]]`. -/
abbrev Mapping := List (String × List String)

/-- The keys of the mapping, in insertion order. -/
def mkeys (m : Mapping) : List String := m.map Prod.fst

/-- Dictionary lookup `mapping[k]` (as an `Option`). -/
def mget (m : Mapping) (k : String) : Option (List String) :=
  (m.find? (fun kv => kv.1 == k)).map Prod.snd

/-- `mapping.setdefault(k, [])`: keep the mapping if `k` is a key already,
otherwise add the key `k` at the end with an empty list. -/
def setdefault (m : Mapping) (k : String) : Mapping :=
  if m.any (fun kv => kv.1 == k) then m else m ++ [(k, [])]

/-- `mapping[k].append(a)`: append `a` to the list stored under key `k`
(no-op on other keys, and on a mapping without the key `k`). -/
def mappend (m : Mapping) (k : String) (a : String) : Mapping :=
  m.map (fun kv => if kv.1 == k then (kv.1, kv.2 ++ [a]) else kv)

/-- One iteration of the `for row in data_rows[1:]` loop of `build_mapping`.
The state is the pair `(current_ps, mapping)`.

In the loop, `mapping[current_ps]` is only read after `current_ps` has been
set, and every value ever assigned to `current_ps` is `setdefault`ed into
`mapping` at that moment, so the key is always present; the embedding reads
the entry with `(mget …).getD []`. -/
def processRow (st : Option String × Mapping) (row : Row) : Option String × Mapping :=
  let current_ps := st.1
  let mapping := st.2
  -- When a new PS name appears, update current_ps
  let stm :=
    match row.ps_name with
    | Cell.str s =>
        if pyStrip s ≠ "" then
          let ps_name_clean := pyStrip s
          (some ps_name_clean, setdefault mapping ps_name_clean)
        else (current_ps, mapping)
    | _ => (current_ps, mapping)
  -- If we still don't have a PS name, skip
  match stm.1 with
  | Option.none => stm
  | some ps =>
      -- Read area / village name
      match row.area with
      | Cell.str a =>
          let area_clean := pyStrip a
          if area_clean = "" then (some ps, stm.2)
          else
            -- Deduplicate per PS using a normalized key, keep original spelling
            if ((mget stm.2 ps).getD []).any
                (fun b => pyLower (pyStrip b) == pyLower area_clean) then
              (some ps, stm.2)
            else
              (some ps, mappend stm.2 ps area_clean)
      | _ => (some ps, stm.2)

/-- The loop of `build_mapping` run over a list of rows, from the initial
state `current_ps = None`, `mapping = {}`. -/
def buildLoop (rows : List Row) : Option String × Mapping :=
  rows.foldl processRow (Option.none, ([] : Mapping))

/-- `build_mapping`, from the list of data rows (spreadsheet row 2 onwards):
skip the first data row (the column-header row) and run the loop. -/
def build_mapping (data_rows : List Row) : Mapping :=
  (buildLoop (data_rows.drop 1)).2

/-! Derived views of a row, used to state the specifications. -/

/-- The station name carried by a row: the trimmed `ps_name` cell when it is
a string that is non-empty after trimming. -/
def stationOf (row : Row) : Option String :=
  match row.ps_name with
  | Cell.str s => if pyStrip s ≠ "" then some (pyStrip s) else none
  | _ => none

/-- The area name carried by a row: the trimmed `area` cell when it is a
string that is non-empty after trimming. -/
def areaOf (row : Row) : Option String :=
  match row.area with
  | Cell.str a => if pyStrip a ≠ "" then some (pyStrip a) else none
  | _ => none

/-- How one row updates the current station. -/
def updateCur (c : Option String) (row : Row) : Option String :=
  match stationOf row with
  | some k => some k
  | Option.none => c

/-- Fold a list of names into a key list, appending each name at the end
unless it is present already (first-occurrence order). -/
def insertAll (ks : List String) (names : List String) : List String :=
  names.foldl (fun ks n => if n ∈ ks then ks else ks ++ [n]) ks

/-- Fold a stream of (already trimmed) area names into an area list,
appending each at the end unless its lowercased trimmed form is present
already — the dedup step of the loop. -/
def dedupInto (l : List String) (xs : List String) : List String :=
  xs.foldl
    (fun l a =>
      if l.any (fun b => pyLower (pyStrip b) == pyLower a) then l else l ++ [a]) l

/-- The stream of trimmed area names attributed to station `k` by the rows,
given the current station `c` on entry: replay the current-station updates
and collect each row's area when the current station (after the row's own
station update) is `k`. -/
def attrib (c : Option String) (k : String) : List Row → List String
  | [] => []
  | r :: rs =>
      let c2 := updateCur c r
      (if c2 = some k then (areaOf r).toList else []) ++ attrib c2 k rs

/-- Reshaped form of one loop iteration, phrased with the row views
`stationOf`, `areaOf`, `updateCur`; proven equal to `processRow` below. -/
def pStep (c : Option String) (m : Mapping) (r : Row) : Option String × Mapping :=
  let m1 := match stationOf r with
            | some n => setdefault m n
            | Option.none => m
  match updateCur c r with
  | Option.none => (Option.none, m1)
  | some ps =>
      match areaOf r with
      | some a =>
          if ((mget m1 ps).getD []).any
              (fun b => pyLower (pyStrip b) == pyLower a) then (some ps, m1)
          else (some ps, mappend m1 ps a)
      | Option.none => (some ps, m1)

/-- The station-update phase of one iteration: the mapping after the
possible `setdefault`. -/
def stationPhase (m : Mapping) (so : Option String) : Mapping :=
  match so with
  | some n => setdefault m n
  | Option.none => m

/-- The area-recording phase of one iteration, given the post-update mapping
`m1`, the current station `ps`, and the row's area view. -/
def areaPhase (m1 : Mapping) (ps : String) (ao : Option String) : Mapping :=
  match ao with
  | some a =>
      if ((mget m1 ps).getD []).any
          (fun b => pyLower (pyStrip b) == pyLower a) then m1
      else mappend m1 ps a
  | Option.none => m1

/-- State invariant of the loop: the current station, when set, is a key of
the mapping. -/
def CurInv (st : Option String × Mapping) : Prop :=
  ∀ k, st.1 = some k → k ∈ mkeys st.2

/-- Data invariant of the mapping: keys are distinct; keys and stored areas
are non-empty and trimmed; the lowercased trimmed forms of each area list
are pairwise distinct. -/
def GoodM (m : Mapping) : Prop :=
  (mkeys m).Nodup ∧
    ∀ kv ∈ m,
      kv.1 ≠ "" ∧ pyStrip kv.1 = kv.1 ∧
      (kv.2.map (fun a => pyLower (pyStrip a))).Nodup ∧
      ∀ a ∈ kv.2, a ≠ "" ∧ pyStrip a = a

/-! Concrete rows used for witnesses: the spec's worked example, preceded by
the column-header row that `build_mapping` skips. -/

def exHeader : Row :=
  ⟨Cell.str "S.No", Cell.str "PS S.No", Cell.str "Sub Division",
   Cell.str "Name of the PS", Cell.str "Name of the Area"⟩

def exRow1 : Row := ⟨Cell.none, Cell.none, Cell.none, Cell.str "A PS", Cell.str "Village1"⟩

def exRow2 : Row := ⟨Cell.none, Cell.none, Cell.none, Cell.none, Cell.str "village1 "⟩

def exRow3 : Row := ⟨Cell.none, Cell.none, Cell.none, Cell.str "B PS", Cell.str "Village2"⟩

def exRows : List Row := [exHeader, exRow1, exRow2, exRow3]

/-- A continuation row: no station cell, fresh area `"V2"`. -/
def exRowCont : Row := ⟨Cell.none, Cell.none, Cell.none, Cell.none, Cell.str "V2"⟩

/-- A row whose station cell is present but not text (e.g. a number). -/
def exRowOther : Row := ⟨Cell.none, Cell.none, Cell.none, Cell.other, Cell.str "V2"⟩

/-! Sanity checks on concrete data (the spec's worked example). -/

example :
    buildLoop
      [⟨Cell.none, Cell.none, Cell.none, Cell.str "A PS", Cell.str "Village1"⟩,
       ⟨Cell.none, Cell.none, Cell.none, Cell.none, Cell.str "village1 "⟩,
       ⟨Cell.none, Cell.none, Cell.none, Cell.str "B PS", Cell.str "Village2"⟩]
      = (some "B PS", [("A PS", ["Village1"]), ("B PS", ["Village2"])]) := by
  decide

/-! ### String-level lemmas: `pyStrip` is idempotent -/

lemma dropWhile_head_false {p : Char → Bool} {l t : List Char} {x : Char}
    (h : l.dropWhile p = x :: t) : p x = false := by
  induction l with
  | nil => simp at h
  | cons a l ih =>
    rw [List.dropWhile_cons] at h
    split at h
    · exact ih h
    · next hp =>
      cases h
      exact Bool.eq_false_iff.mpr hp

lemma dropWhile_idem (p : Char → Bool) (l : List Char) :
    (l.dropWhile p).dropWhile p = l.dropWhile p := by
  rcases h : l.dropWhile p with _ | ⟨x, t⟩
  · rfl
  · rw [List.dropWhile_cons, dropWhile_head_false h]
    simp

lemma getLast?_dropWhile {p : Char → Bool} {l : List Char}
    (h : l.dropWhile p ≠ []) : (l.dropWhile p).getLast? = l.getLast? := by
  induction l with
  | nil => simp at h
  | cons a l ih =>
    by_cases hp : p a
    · rw [List.dropWhile_cons, if_pos hp] at h ⊢
      have hl : l ≠ [] := by
        intro e
        subst e
        simp at h
      obtain ⟨b, l', rfl⟩ := List.exists_cons_of_ne_nil hl
      rw [ih h, List.getLast?_cons_cons]
    · rw [List.dropWhile_cons, if_neg hp]

lemma dropWhile_eq_self_of_head {p : Char → Bool} {l : List Char}
    (h : ∀ x, l.head? = some x → p x = false) : l.dropWhile p = l := by
  cases l with
  | nil => rfl
  | cons a t => simp [List.dropWhile_cons, h a rfl]

lemma stripChars_idem (l : List Char) : stripChars (stripChars l) = stripChars l := by
  rcases hm : l.dropWhile Char.isWhitespace with _ | ⟨x, t⟩
  · have h1 : stripChars l = [] := by
      unfold stripChars
      rw [hm]
      rfl
    rw [h1]
    rfl
  · have px : Char.isWhitespace x = false := dropWhile_head_false hm
    rcases hd : (x :: t).reverse.dropWhile Char.isWhitespace with _ | ⟨y, u⟩
    · have h1 : stripChars l = [] := by
        unfold stripChars
        rw [hm, hd]
        rfl
      rw [h1]
      rfl
    · have hdne : (x :: t).reverse.dropWhile Char.isWhitespace ≠ [] := by
        rw [hd]
        exact List.cons_ne_nil _ _
      have hhead :
          (stripChars l).head? = some x := by
        unfold stripChars
        rw [hm, List.head?_reverse, getLast?_dropWhile hdne, List.getLast?_reverse]
        rfl
      have hself : (stripChars l).dropWhile Char.isWhitespace = stripChars l := by
        apply dropWhile_eq_self_of_head
        intro z hz
        rw [hhead] at hz
        cases hz
        exact px
      have hrev : (stripChars l).reverse =
          (l.dropWhile Char.isWhitespace).reverse.dropWhile Char.isWhitespace := by
        unfold stripChars
        rw [List.reverse_reverse]
      calc stripChars (stripChars l)
          = (((stripChars l).dropWhile Char.isWhitespace).reverse.dropWhile
              Char.isWhitespace).reverse := rfl
        _ = ((stripChars l).reverse.dropWhile Char.isWhitespace).reverse := by
              rw [hself]
        _ = (((l.dropWhile Char.isWhitespace).reverse.dropWhile
              Char.isWhitespace).dropWhile Char.isWhitespace).reverse := by
              rw [hrev]
        _ = ((l.dropWhile Char.isWhitespace).reverse.dropWhile
              Char.isWhitespace).reverse := by
              rw [dropWhile_idem]
        _ = stripChars l := rfl

lemma pyStrip_idem (s : String) : pyStrip (pyStrip s) = pyStrip s :=
  congrArg String.mk (stripChars_idem s.data)

/-! ### Association-list (dict) lemmas -/

lemma mget_cons_of_pos {kv : String × List String} {m : Mapping} {k : String}
    (h : (kv.1 == k) = true) : mget (kv :: m) k = some kv.2 := by
  have hf : List.find? (fun kv => kv.1 == k) (kv :: m) = some kv := by
    rw [List.find?_cons]
    simp [h]
  unfold mget
  rw [hf]
  rfl

lemma mget_cons_of_neg {kv : String × List String} {m : Mapping} {k : String}
    (h : (kv.1 == k) = false) : mget (kv :: m) k = mget m k := by
  have hf : List.find? (fun kv => kv.1 == k) (kv :: m)
      = List.find? (fun kv => kv.1 == k) m := by
    rw [List.find?_cons]
    simp [h]
  unfold mget
  rw [hf]

lemma mem_mkeys_iff_any (m : Mapping) (k : String) :
    (m.any (fun kv => kv.1 == k)) = true ↔ k ∈ mkeys m := by
  simp [mkeys, List.any_eq_true, List.mem_map]

lemma mkeys_cons (kv : String × List String) (m : Mapping) :
    mkeys (kv :: m) = kv.1 :: mkeys m := rfl

lemma mget_eq_none_iff (m : Mapping) (k : String) :
    mget m k = none ↔ k ∉ mkeys m := by
  induction m with
  | nil => simp [mget, mkeys]
  | cons kv m ih =>
    by_cases hb : (kv.1 == k) = true
    · have he : kv.1 = k := by simpa using hb
      rw [mget_cons_of_pos hb, mkeys_cons, he]
      simp
    · have he : ¬kv.1 = k := by simpa using hb
      rw [mget_cons_of_neg (by simpa using hb), ih, mkeys_cons]
      constructor
      · intro hk hmem
        rcases List.mem_cons.mp hmem with he2 | hm2
        · exact he he2.symm
        · exact hk hm2
      · intro hk hm2
        exact hk (List.mem_cons_of_mem _ hm2)

lemma mget_isSome_of_mem {m : Mapping} {k : String} (h : k ∈ mkeys m) :
    ∃ l, mget m k = some l := by
  cases hg : mget m k with
  | none => exact absurd h ((mget_eq_none_iff m k).mp hg)
  | some l => exact ⟨l, rfl⟩

lemma setdefault_cons_of_neg {kv : String × List String} {m : Mapping} {k : String}
    (h : (kv.1 == k) = false) : setdefault (kv :: m) k = kv :: setdefault m k := by
  unfold setdefault
  by_cases hm : (m.any (fun kv => kv.1 == k)) = true
  · rw [if_pos (by simp [List.any_cons, hm]), if_pos hm]
  · rw [if_neg (by simp [List.any_cons, h, hm]), if_neg hm]
    simp

lemma mappend_cons_of_pos {kv : String × List String} {m : Mapping} {k a : String}
    (h : (kv.1 == k) = true) :
    mappend (kv :: m) k a = (kv.1, kv.2 ++ [a]) :: mappend m k a := by
  unfold mappend
  rw [List.map_cons, if_pos h]

lemma mappend_cons_of_neg {kv : String × List String} {m : Mapping} {k a : String}
    (h : (kv.1 == k) = false) :
    mappend (kv :: m) k a = kv :: mappend m k a := by
  unfold mappend
  rw [List.map_cons, if_neg (by simp [h])]

lemma mkeys_setdefault (m : Mapping) (k : String) :
    mkeys (setdefault m k) =
      if k ∈ mkeys m then mkeys m else mkeys m ++ [k] := by
  unfold setdefault
  by_cases h : k ∈ mkeys m
  · rw [if_pos ((mem_mkeys_iff_any m k).mpr h), if_pos h]
  · rw [if_neg (fun hh => h ((mem_mkeys_iff_any m k).mp hh)), if_neg h]
    simp [mkeys]

lemma mget_setdefault_self (m : Mapping) (k : String) :
    mget (setdefault m k) k = some ((mget m k).getD []) := by
  induction m with
  | nil => simp [mget, setdefault]
  | cons kv m ih =>
    by_cases h : (kv.1 == k) = true
    · unfold setdefault
      rw [if_pos (by simp [List.any_cons, h])]
      rw [mget_cons_of_pos h]
      rfl
    · rw [setdefault_cons_of_neg (by simpa using h)]
      rw [mget_cons_of_neg (by simpa using h), mget_cons_of_neg (by simpa using h)]
      exact ih

lemma mget_setdefault_ne (m : Mapping) {k k' : String} (h : k' ≠ k) :
    mget (setdefault m k) k' = mget m k' := by
  unfold setdefault
  split
  · rfl
  · unfold mget
    rw [List.find?_append]
    have hne : (((k, ([] : List String)).1 == k')) = false := by
      simpa using fun e => h e.symm
    rw [List.find?_cons_of_neg _ (by simp [hne])]
    simp

lemma mkeys_mappend (m : Mapping) (k a : String) :
    mkeys (mappend m k a) = mkeys m := by
  unfold mkeys mappend
  rw [List.map_map]
  apply List.map_congr_left
  intro kv _
  by_cases h : kv.1 = k
  · simp [h]
  · simp [h]

lemma mget_mappend_self {m : Mapping} {k : String} {l : List String} (a : String)
    (h : mget m k = some l) : mget (mappend m k a) k = some (l ++ [a]) := by
  induction m with
  | nil => simp [mget] at h
  | cons kv m ih =>
    by_cases hb : (kv.1 == k) = true
    · rw [mget_cons_of_pos hb] at h
      cases h
      rw [mappend_cons_of_pos hb,
        @mget_cons_of_pos (kv.1, kv.2 ++ [a]) (mappend m k a) k hb]
    · rw [mget_cons_of_neg (by simpa using hb)] at h
      rw [mappend_cons_of_neg (by simpa using hb),
        mget_cons_of_neg (by simpa using hb)]
      exact ih h

lemma mget_mappend_ne (m : Mapping) {k k' : String} (a : String) (h : k' ≠ k) :
    mget (mappend m k a) k' = mget m k' := by
  induction m with
  | nil => rfl
  | cons kv m ih =>
    by_cases hb : (kv.1 == k) = true
    · have hk : kv.1 = k := by simpa using hb
      have hb' : (kv.1 == k') = false := by
        simpa [hk] using fun e => h e.symm
      rw [mappend_cons_of_pos hb,
        @mget_cons_of_neg (kv.1, kv.2 ++ [a]) (mappend m k a) k' hb',
        mget_cons_of_neg hb']
      exact ih
    · rw [mappend_cons_of_neg (by simpa using hb)]
      by_cases hb' : (kv.1 == k') = true
      · rw [mget_cons_of_pos hb', mget_cons_of_pos hb']
      · rw [mget_cons_of_neg (by simpa using hb'), mget_cons_of_neg (by simpa using hb')]
        exact ih

/-! ### The loop step, reshaped -/

lemma processRow_eq (c : Option String) (m : Mapping) (r : Row) :
    processRow (c, m) r = pStep c m r := by
  cases hps : r.ps_name with
  | str s =>
    by_cases hs : pyStrip s = ""
    · cases c with
      | none =>
        cases har : r.area with
        | str a =>
          by_cases ha : pyStrip a = ""
          · simp [processRow, pStep, stationOf, areaOf, updateCur, hps, har, hs, ha]
          · simp [processRow, pStep, stationOf, areaOf, updateCur, hps, har, hs, ha]
        | none => simp [processRow, pStep, stationOf, areaOf, updateCur, hps, har, hs]
        | other => simp [processRow, pStep, stationOf, areaOf, updateCur, hps, har, hs]
      | some ps =>
        cases har : r.area with
        | str a =>
          by_cases ha : pyStrip a = ""
          · simp [processRow, pStep, stationOf, areaOf, updateCur, hps, har, hs, ha]
          · simp [processRow, pStep, stationOf, areaOf, updateCur, hps, har, hs, ha]
        | none => simp [processRow, pStep, stationOf, areaOf, updateCur, hps, har, hs]
        | other => simp [processRow, pStep, stationOf, areaOf, updateCur, hps, har, hs]
    · cases har : r.area with
      | str a =>
        by_cases ha : pyStrip a = ""
        · simp [processRow, pStep, stationOf, areaOf, updateCur, hps, har, hs, ha]
        · simp [processRow, pStep, stationOf, areaOf, updateCur, hps, har, hs, ha]
      | none => simp [processRow, pStep, stationOf, areaOf, updateCur, hps, har, hs]
      | other => simp [processRow, pStep, stationOf, areaOf, updateCur, hps, har, hs]
  | none =>
    cases c with
    | none =>
      cases har : r.area with
      | str a => simp [processRow, pStep, stationOf, areaOf, updateCur, hps, har]
      | none => simp [processRow, pStep, stationOf, areaOf, updateCur, hps, har]
      | other => simp [processRow, pStep, stationOf, areaOf, updateCur, hps, har]
    | some ps =>
      cases har : r.area with
      | str a =>
        by_cases ha : pyStrip a = ""
        · simp [processRow, pStep, stationOf, areaOf, updateCur, hps, har, ha]
        · simp [processRow, pStep, stationOf, areaOf, updateCur, hps, har, ha]
      | none => simp [processRow, pStep, stationOf, areaOf, updateCur, hps, har]
      | other => simp [processRow, pStep, stationOf, areaOf, updateCur, hps, har]
  | other =>
    cases c with
    | none =>
      cases har : r.area with
      | str a => simp [processRow, pStep, stationOf, areaOf, updateCur, hps, har]
      | none => simp [processRow, pStep, stationOf, areaOf, updateCur, hps, har]
      | other => simp [processRow, pStep, stationOf, areaOf, updateCur, hps, har]
    | some ps =>
      cases har : r.area with
      | str a =>
        by_cases ha : pyStrip a = ""
        · simp [processRow, pStep, stationOf, areaOf, updateCur, hps, har, ha]
        · simp [processRow, pStep, stationOf, areaOf, updateCur, hps, har, ha]
      | none => simp [processRow, pStep, stationOf, areaOf, updateCur, hps, har]
      | other => simp [processRow, pStep, stationOf, areaOf, updateCur, hps, har]

lemma updateCur_station {r : Row} {n : String} (h : stationOf r = some n)
    (c : Option String) : updateCur c r = some n := by
  simp [updateCur, h]

lemma updateCur_nostation {r : Row} (h : stationOf r = none)
    (c : Option String) : updateCur c r = c := by
  simp [updateCur, h]

lemma dedupInto_nil (l : List String) : dedupInto l [] = l := rfl

lemma dedupInto_single (l : List String) (a : String) :
    dedupInto l [a] =
      if l.any (fun b => pyLower (pyStrip b) == pyLower a) then l else l ++ [a] := rfl

lemma dedupInto_append (l : List String) (xs ys : List String) :
    dedupInto l (xs ++ ys) = dedupInto (dedupInto l xs) ys := by
  unfold dedupInto
  rw [List.foldl_append]

lemma mget_mappend_none {m : Mapping} {k : String} (a : String)
    (h : mget m k = none) : mget (mappend m k a) k = none := by
  rw [mget_eq_none_iff] at h ⊢
  rwa [mkeys_mappend]

lemma mget_of_mem {m : Mapping} (hnd : (mkeys m).Nodup)
    {kv : String × List String} (h : kv ∈ m) : mget m kv.1 = some kv.2 := by
  induction m with
  | nil => cases h
  | cons kv0 m ih =>
    rcases List.mem_cons.mp h with rfl | hm
    · exact mget_cons_of_pos (by simp)
    · rw [mkeys_cons] at hnd
      have hne : kv0.1 ≠ kv.1 := by
        intro e
        exact (List.nodup_cons.mp hnd).1 (e ▸ List.mem_map.mpr ⟨kv, hm, rfl⟩)
      rw [mget_cons_of_neg (by simp [hne])]
      exact ih (List.nodup_cons.mp hnd).2 hm

lemma pStep_fst (c : Option String) (m : Mapping) (r : Row) :
    (pStep c m r).1 = updateCur c r := by
  unfold pStep
  cases hu : updateCur c r with
  | none => simp
  | some ps =>
    cases ha : areaOf r with
    | none => simp
    | some a =>
      simp only []
      split <;> rfl

lemma pStep_keys (c : Option String) (m : Mapping) (r : Row) :
    mkeys (pStep c m r).2 =
      match stationOf r with
      | some n => if n ∈ mkeys m then mkeys m else mkeys m ++ [n]
      | Option.none => mkeys m := by
  unfold pStep
  cases hs : stationOf r with
  | none =>
    cases hu : updateCur c r with
    | none => simp
    | some ps =>
      cases ha : areaOf r with
      | none => simp
      | some a =>
        simp only []
        split
        · rfl
        · simp [mkeys_mappend]
  | some n =>
    rw [updateCur_station hs c]
    cases ha : areaOf r with
    | none => simp [mkeys_setdefault]
    | some a =>
      simp only []
      split
      · simp [mkeys_setdefault]
      · simp [mkeys_mappend, mkeys_setdefault]

lemma pStep_snd (c : Option String) (m : Mapping) (r : Row) :
    (pStep c m r).2 =
      match updateCur c r with
      | Option.none => stationPhase m (stationOf r)
      | some ps => areaPhase (stationPhase m (stationOf r)) ps (areaOf r) := by
  cases hu : updateCur c r with
  | none => cases ha : areaOf r <;> simp [pStep, stationPhase, areaPhase, hu, ha]
  | some ps =>
    cases ha : areaOf r with
    | none => simp [pStep, stationPhase, areaPhase, hu, ha]
    | some a =>
      simp only [pStep, stationPhase, areaPhase, hu, ha]
      split <;> rfl

lemma stationPhase_mget (m : Mapping) (so : Option String) (k : String) :
    mget (stationPhase m so) k =
      if so = some k then some ((mget m k).getD []) else mget m k := by
  cases so with
  | none => simp [stationPhase]
  | some n =>
    by_cases h : n = k
    · subst h
      simp [stationPhase, mget_setdefault_self]
    · rw [show stationPhase m (some n) = setdefault m n from rfl,
        mget_setdefault_ne _ (fun e => h e.symm), if_neg (by simp [h])]

lemma areaPhase_keys (m1 : Mapping) (ps : String) (ao : Option String) :
    mkeys (areaPhase m1 ps ao) = mkeys m1 := by
  cases ao with
  | none => rfl
  | some a =>
    show mkeys
        (if ((mget m1 ps).getD []).any
            (fun b => pyLower (pyStrip b) == pyLower a) then m1
         else mappend m1 ps a) = mkeys m1
    split
    · rfl
    · exact mkeys_mappend m1 ps a

lemma areaPhase_mget_self {m1 : Mapping} {ps : String} {l : List String}
    (h : mget m1 ps = some l) (ao : Option String) :
    mget (areaPhase m1 ps ao) ps = some (dedupInto l ao.toList) := by
  cases ao with
  | none => simpa [areaPhase, dedupInto_nil] using h
  | some a =>
    unfold areaPhase
    rw [h]
    simp only [Option.getD_some, Option.toList_some]
    by_cases hdup : (l.any (fun b => pyLower (pyStrip b) == pyLower a)) = true
    · rw [if_pos hdup, h, dedupInto_single, if_pos hdup]
    · rw [if_neg hdup, mget_mappend_self a h, dedupInto_single, if_neg hdup]

lemma areaPhase_mget_self_none {m1 : Mapping} {ps : String}
    (h : mget m1 ps = none) (ao : Option String) :
    mget (areaPhase m1 ps ao) ps = none := by
  cases ao with
  | none => exact h
  | some a =>
    unfold areaPhase
    rw [h]
    simp only [Option.getD_none, List.any_nil]
    rw [if_neg (by simp)]
    exact mget_mappend_none a h

lemma areaPhase_mget_ne {ps k : String} (m1 : Mapping) (ao : Option String)
    (h : k ≠ ps) : mget (areaPhase m1 ps ao) k = mget m1 k := by
  cases ao with
  | none => rfl
  | some a =>
    show mget
        (if ((mget m1 ps).getD []).any
            (fun b => pyLower (pyStrip b) == pyLower a) then m1
         else mappend m1 ps a) k = mget m1 k
    split
    · rfl
    · exact mget_mappend_ne m1 _ h

lemma pStep_mget (c : Option String) (m : Mapping) (r : Row) (k : String) :
    mget (pStep c m r).2 k =
      Option.map
        (fun l => dedupInto l (if updateCur c r = some k then (areaOf r).toList else []))
        (mget (stationPhase m (stationOf r)) k) := by
  rw [pStep_snd]
  cases hu : updateCur c r with
  | none =>
    cases mget (stationPhase m (stationOf r)) k <;> simp [dedupInto_nil]
  | some ps =>
    by_cases hpk : k = ps
    · subst hpk
      cases hg : mget (stationPhase m (stationOf r)) k with
      | none => simp [areaPhase_mget_self_none hg]
      | some l => simp [areaPhase_mget_self hg]
    · rw [areaPhase_mget_ne _ _ hpk]
      rw [if_neg (show ¬(some ps = some k) from fun e =>
        hpk (Option.some.inj e).symm)]
      cases mget (stationPhase m (stationOf r)) k <;> simp [dedupInto_nil]

/-! ### Invariant preservation -/

lemma stationOf_some_props {r : Row} {n : String} (h : stationOf r = some n) :
    n ≠ "" ∧ pyStrip n = n := by
  rcases hc : r.ps_name with _ | s | _
  · simp [stationOf, hc] at h
  · simp only [stationOf, hc] at h
    by_cases hs : pyStrip s = ""
    · rw [if_neg (not_not_intro hs)] at h
      cases h
    · rw [if_pos hs] at h
      cases Option.some.inj h
      exact ⟨hs, pyStrip_idem s⟩
  · simp [stationOf, hc] at h

lemma areaOf_some_props {r : Row} {a : String} (h : areaOf r = some a) :
    a ≠ "" ∧ pyStrip a = a := by
  rcases hc : r.area with _ | s | _
  · simp [areaOf, hc] at h
  · simp only [areaOf, hc] at h
    by_cases hs : pyStrip s = ""
    · rw [if_neg (not_not_intro hs)] at h
      cases h
    · rw [if_pos hs] at h
      cases Option.some.inj h
      exact ⟨hs, pyStrip_idem s⟩
  · simp [areaOf, hc] at h

lemma mkeys_append (m m' : Mapping) : mkeys (m ++ m') = mkeys m ++ mkeys m' := by
  simp [mkeys]

lemma mappend_of_not_mem {m : Mapping} {k : String} (h : k ∉ mkeys m) (a : String) :
    mappend m k a = m := by
  induction m with
  | nil => rfl
  | cons kv m ih =>
    rw [mkeys_cons] at h
    have h1 : ¬k = kv.1 := fun e => h (e ▸ List.mem_cons_self _ _)
    have h2 : k ∉ mkeys m := fun e => h (List.mem_cons_of_mem _ e)
    have hb : (kv.1 == k) = false := by
      simpa using fun e => h1 e.symm
    rw [mappend_cons_of_neg hb, ih h2]

lemma pStep_curInv {c : Option String} {m : Mapping} (h : CurInv (c, m)) (r : Row) :
    CurInv (pStep c m r) := by
  intro k hk
  rw [pStep_fst] at hk
  rw [pStep_keys]
  cases hs : stationOf r with
  | none =>
    rw [updateCur_nostation hs c] at hk
    exact h k hk
  | some n =>
    rw [updateCur_station hs c] at hk
    obtain rfl : n = k := Option.some.inj hk
    show n ∈ if n ∈ mkeys m then mkeys m else mkeys m ++ [n]
    by_cases hmem : n ∈ mkeys m
    · rw [if_pos hmem]
      exact hmem
    · rw [if_neg hmem]
      exact List.mem_append.mpr (Or.inr (List.mem_cons_self _ _))

lemma setdefault_good {m : Mapping} (hg : GoodM m) {k : String}
    (hk1 : k ≠ "") (hk2 : pyStrip k = k) : GoodM (setdefault m k) := by
  obtain ⟨hnd, hent⟩ := hg
  unfold setdefault
  split
  · exact ⟨hnd, hent⟩
  · next hmem =>
    have hk : k ∉ mkeys m := fun hc => hmem ((mem_mkeys_iff_any m k).mpr hc)
    constructor
    · rw [mkeys_append]
      have hone : mkeys [(k, ([] : List String))] = [k] := rfl
      rw [hone, List.nodup_append]
      refine ⟨hnd, List.nodup_singleton k, ?_⟩
      intro x hx hx2
      have hxk : x = k := by simpa using hx2
      subst hxk
      exact hk hx
    · intro kv hkv
      rcases List.mem_append.mp hkv with h1 | h2
      · exact hent kv h1
      · have : kv = (k, []) := by simpa using h2
        subst this
        refine ⟨hk1, hk2, by simp, by simp⟩

lemma mappend_good {m : Mapping} (hg : GoodM m) {k a : String} {l : List String}
    (hget : mget m k = some l)
    (hdup : (l.any (fun b => pyLower (pyStrip b) == pyLower a)) = false)
    (ha1 : a ≠ "") (ha2 : pyStrip a = a) : GoodM (mappend m k a) := by
  obtain ⟨hnd, hent⟩ := hg
  refine ⟨by rw [mkeys_mappend]; exact hnd, ?_⟩
  intro kv hkv
  rw [mappend] at hkv
  rcases List.mem_map.mp hkv with ⟨kv0, hkv0, heq⟩
  by_cases hb : (kv0.1 == k) = true
  · rw [if_pos hb] at heq
    subst heq
    have hkk : kv0.1 = k := by simpa using hb
    have hl : kv0.2 = l := by
      have h2 := mget_of_mem hnd hkv0
      rw [hkk, hget] at h2
      exact (Option.some.inj h2).symm
    obtain ⟨h1, h2, h3, h4⟩ := hent kv0 hkv0
    subst hl
    refine ⟨h1, h2, ?_, ?_⟩
    · rw [List.map_append]
      rw [List.nodup_append]
      refine ⟨h3, by simp, ?_⟩
      intro x hx hx2
      have hx3 : x = pyLower (pyStrip a) := by simpa using hx2
      rw [ha2] at hx3
      rcases List.mem_map.mp hx with ⟨b, hb2, hbeq⟩
      have := (List.any_eq_false).mp hdup b hb2
      rw [hx3] at hbeq
      exact this (by simpa using hbeq)
    · intro x hx
      rcases List.mem_append.mp hx with hx1 | hx2
      · exact h4 x hx1
      · have : x = a := by simpa using hx2
        subst this
        exact ⟨ha1, ha2⟩
  · rw [if_neg hb] at heq
    subst heq
    exact hent kv0 hkv0

lemma pStep_good {m : Mapping} (hg : GoodM m) (c : Option String) (r : Row) :
    GoodM (pStep c m r).2 := by
  rw [pStep_snd]
  have hg1 : GoodM (stationPhase m (stationOf r)) := by
    cases hs : stationOf r with
    | none => exact hg
    | some n =>
      obtain ⟨hn1, hn2⟩ := stationOf_some_props hs
      exact setdefault_good hg hn1 hn2
  cases hu : updateCur c r with
  | none => exact hg1
  | some ps =>
    cases ha : areaOf r with
    | none => exact hg1
    | some a =>
      obtain ⟨ha1, ha2⟩ := areaOf_some_props ha
      show GoodM (if ((mget (stationPhase m (stationOf r)) ps).getD []).any
          (fun b => pyLower (pyStrip b) == pyLower a)
        then stationPhase m (stationOf r)
        else mappend (stationPhase m (stationOf r)) ps a)
      cases hget : mget (stationPhase m (stationOf r)) ps with
      | none =>
        rw [if_neg (by simp)]
        rw [mappend_of_not_mem ((mget_eq_none_iff _ ps).mp hget) a]
        exact hg1
      | some l =>
        simp only [Option.getD_some]
        by_cases hdup : (l.any (fun b => pyLower (pyStrip b) == pyLower a)) = true
        · rw [if_pos hdup]
          exact hg1
        · rw [if_neg hdup]
          exact mappend_good hg1 hget (Bool.eq_false_iff.mpr hdup) ha1 ha2

lemma foldl_curInv (rows : List Row) :
    ∀ st : Option String × Mapping, CurInv st → CurInv (rows.foldl processRow st) := by
  induction rows with
  | nil =>
    intro st h
    exact h
  | cons r rows ih =>
    intro st h
    obtain ⟨c, m⟩ := st
    rw [List.foldl_cons, processRow_eq c m r]
    exact ih _ (pStep_curInv h r)

lemma foldl_goodM (rows : List Row) :
    ∀ st : Option String × Mapping, GoodM st.2 → GoodM (rows.foldl processRow st).2 := by
  induction rows with
  | nil =>
    intro st h
    exact h
  | cons r rows ih =>
    intro st h
    obtain ⟨c, m⟩ := st
    rw [List.foldl_cons, processRow_eq c m r]
    exact ih _ (pStep_good h c r)

lemma buildLoop_curInv (rows : List Row) : CurInv (buildLoop rows) :=
  foldl_curInv rows _ (fun _ hk => Option.noConfusion hk)

lemma buildLoop_goodM (rows : List Row) : GoodM (buildLoop rows).2 :=
  foldl_goodM rows _ ⟨List.nodup_nil, fun kv h => absurd h (List.not_mem_nil kv)⟩

/-! ### The master characterization of the loop -/

lemma insertAll_cons (ks : List String) (n : String) (ns : List String) :
    insertAll ks (n :: ns) = insertAll (if n ∈ ks then ks else ks ++ [n]) ns := rfl

lemma attrib_cons (c : Option String) (k : String) (r : Row) (rs : List Row) :
    attrib c k (r :: rs) =
      (if updateCur c r = some k then (areaOf r).toList else [])
        ++ attrib (updateCur c r) k rs := rfl

lemma foldl_spec (rows : List Row) :
    ∀ (c : Option String) (m : Mapping), CurInv (c, m) →
      (rows.foldl processRow (c, m)).1 = rows.foldl updateCur c
      ∧ mkeys (rows.foldl processRow (c, m)).2
          = insertAll (mkeys m) (rows.filterMap stationOf)
      ∧ ∀ k, mget (rows.foldl processRow (c, m)).2 k =
          if k ∈ mkeys m ∨ k ∈ rows.filterMap stationOf
          then some (dedupInto ((mget m k).getD []) (attrib c k rows))
          else none := by
  induction rows with
  | nil =>
    intro c m _
    refine ⟨rfl, rfl, fun k => ?_⟩
    by_cases hk : k ∈ mkeys m
    · rcases mget_isSome_of_mem hk with ⟨l, hl⟩
      rw [if_pos (Or.inl hk), hl]
      simpa [attrib, dedupInto_nil] using hl
    · rw [if_neg (by simp [hk])]
      exact (mget_eq_none_iff m k).mpr hk
  | cons r rows ih =>
    intro c m hInv
    have hInv2 : CurInv (updateCur c r, (pStep c m r).2) := by
      have h2 := pStep_curInv hInv r
      intro k hk
      exact h2 k (by rw [pStep_fst]; exact hk)
    obtain ⟨ih1, ih2, ih3⟩ := ih (updateCur c r) ((pStep c m r).2) hInv2
    have hfold : (r :: rows).foldl processRow (c, m)
        = rows.foldl processRow (updateCur c r, (pStep c m r).2) := by
      rw [List.foldl_cons, processRow_eq c m r]
      congr 1
      exact Prod.ext_iff.mpr ⟨pStep_fst c m r, rfl⟩
    refine ⟨?_, ?_, ?_⟩
    · rw [hfold, ih1, List.foldl_cons]
    · rw [hfold, ih2]
      cases hs : stationOf r with
      | none =>
        have hk2 : mkeys (pStep c m r).2 = mkeys m := by
          rw [pStep_keys, hs]
        have hfm : (r :: rows).filterMap stationOf = rows.filterMap stationOf := by
          simp [List.filterMap_cons, hs]
        rw [hk2, hfm]
      | some n =>
        have hk2 : mkeys (pStep c m r).2
            = if n ∈ mkeys m then mkeys m else mkeys m ++ [n] := by
          rw [pStep_keys, hs]
        have hfm : (r :: rows).filterMap stationOf
            = n :: rows.filterMap stationOf := by
          simp [List.filterMap_cons, hs]
        rw [hk2, hfm, insertAll_cons]
    · intro k
      rw [hfold, ih3 k]
      have hcond : (k ∈ mkeys (pStep c m r).2 ∨ k ∈ rows.filterMap stationOf)
          ↔ (k ∈ mkeys m ∨ k ∈ (r :: rows).filterMap stationOf) := by
        cases hs : stationOf r with
        | none =>
          have hk2 : mkeys (pStep c m r).2 = mkeys m := by
            rw [pStep_keys, hs]
          simp [hk2, List.filterMap_cons, hs]
        | some n =>
          have hk2 : mkeys (pStep c m r).2
              = if n ∈ mkeys m then mkeys m else mkeys m ++ [n] := by
            rw [pStep_keys, hs]
          have hfm : (r :: rows).filterMap stationOf
              = n :: rows.filterMap stationOf := by
            simp [List.filterMap_cons, hs]
          rw [hk2, hfm]
          by_cases hnm : n ∈ mkeys m
          · rw [if_pos hnm]
            constructor
            · rintro (h | h)
              · exact Or.inl h
              · exact Or.inr (List.mem_cons_of_mem _ h)
            · rintro (h | h)
              · exact Or.inl h
              · rcases List.mem_cons.mp h with rfl | h2
                · exact Or.inl hnm
                · exact Or.inr h2
          · rw [if_neg hnm]
            constructor
            · rintro (h | h)
              · rcases List.mem_append.mp h with h1 | h2
                · exact Or.inl h1
                · exact Or.inr (List.mem_cons.mpr (Or.inl (by simpa using h2)))
              · exact Or.inr (List.mem_cons_of_mem _ h)
            · rintro (h | h)
              · exact Or.inl (List.mem_append.mpr (Or.inl h))
              · rcases List.mem_cons.mp h with rfl | h2
                · exact Or.inl (List.mem_append.mpr (Or.inr (by simp)))
                · exact Or.inr h2
      by_cases hc : k ∈ mkeys m ∨ k ∈ (r :: rows).filterMap stationOf
      · rw [if_pos (hcond.mpr hc), if_pos hc]
        congr 1
        rw [pStep_mget, stationPhase_mget, attrib_cons]
        by_cases hsk : stationOf r = some k
        · rw [if_pos hsk]
          simp only [Option.map_some', Option.getD_some]
          rw [dedupInto_append]
        · rw [if_neg hsk]
          cases hg : mget m k with
          | some l =>
            simp only [Option.map_some', Option.getD_some]
            rw [dedupInto_append]
          | none =>
            simp only [Option.map_none', Option.getD_none]
            have hH : ¬updateCur c r = some k := by
              intro hu
              cases hsu : stationOf r with
              | some n =>
                rw [updateCur_station hsu c] at hu
                exact hsk (hsu.trans hu)
              | none =>
                rw [updateCur_nostation hsu c] at hu
                rcases mget_isSome_of_mem (hInv k hu) with ⟨l, hl⟩
                rw [hl] at hg
                cases hg
            rw [if_neg hH, List.nil_append]
      · rw [if_neg (fun hh => hc (hcond.mp hh)), if_neg hc]

/-! ### Consequences at the initial state -/

lemma buildLoop_keys (rows : List Row) :
    mkeys (buildLoop rows).2 = insertAll [] (rows.filterMap stationOf) :=
  (foldl_spec rows Option.none [] (fun _ hk => Option.noConfusion hk)).2.1

lemma buildLoop_mget (rows : List Row) (k : String) :
    mget (buildLoop rows).2 k =
      if k ∈ rows.filterMap stationOf
      then some (dedupInto [] (attrib Option.none k rows))
      else none := by
  have h := (foldl_spec rows Option.none [] (fun _ hk => Option.noConfusion hk)).2.2 k
  rw [show buildLoop rows = rows.foldl processRow (Option.none, ([] : Mapping)) from rfl]
  rw [h]
  by_cases hk : k ∈ rows.filterMap stationOf
  · rw [if_pos (Or.inr hk), if_pos hk]
    rfl
  · rw [if_neg ?side, if_neg hk]
    case side =>
      rintro (h2 | h2)
      · exact List.not_mem_nil k h2
      · exact hk h2

lemma foldl_skip_nostation :
    ∀ pre : List Row, (∀ r ∈ pre, stationOf r = none) →
      pre.foldl processRow (Option.none, ([] : Mapping)) = (Option.none, []) := by
  intro pre
  induction pre with
  | nil => intro _; rfl
  | cons r pre ih =>
    intro h
    rw [List.foldl_cons]
    have hr : stationOf r = none := h r (List.mem_cons_self _ _)
    have hstep : processRow (Option.none, ([] : Mapping)) r = (Option.none, []) := by
      rw [processRow_eq]
      have hfst : (pStep Option.none [] r).1 = Option.none := by
        rw [pStep_fst, updateCur_nostation hr]
      have hsnd : (pStep Option.none [] r).2 = [] := by
        rw [pStep_snd, updateCur_nostation hr]
        show stationPhase ([] : Mapping) (stationOf r) = []
        rw [hr]
        rfl
      exact Prod.ext_iff.mpr ⟨hfst, hsnd⟩
    rw [hstep]
    exact ih (fun x hx => h x (List.mem_cons_of_mem _ hx))

lemma insertAll_suffix (ns : List String) :
    ∀ ks : List String, ∃ t, insertAll ks ns = ks ++ t := by
  induction ns with
  | nil => intro ks; exact ⟨[], (List.append_nil ks).symm⟩
  | cons n ns ih =>
    intro ks
    rw [insertAll_cons]
    by_cases hn : n ∈ ks
    · rw [if_pos hn]
      exact ih ks
    · rw [if_neg hn]
      rcases ih (ks ++ [n]) with ⟨t, ht⟩
      exact ⟨[n] ++ t, by rw [ht, List.append_assoc]⟩

lemma insertAll_nodup (ns : List String) :
    ∀ ks : List String, ks.Nodup → (insertAll ks ns).Nodup := by
  induction ns with
  | nil => intro ks h; exact h
  | cons n ns ih =>
    intro ks h
    rw [insertAll_cons]
    by_cases hn : n ∈ ks
    · rw [if_pos hn]
      exact ih ks h
    · rw [if_neg hn]
      refine ih _ ?_
      rw [List.nodup_append]
      refine ⟨h, List.nodup_singleton n, ?_⟩
      intro x hx hx2
      have hxn : x = n := by simpa using hx2
      exact hn (hxn ▸ hx)

/-! ## The claims -/

/-- C1: for every input row sequence, within each station's area list of the
Mapping returned by `build_mapping`, no two entries are equal after trimming
and lowercasing: the list of lowercased trimmed forms has no duplicate. -/
theorem C1_area_dedup (rows : List Row) (kv : String × List String)
    (h : kv ∈ build_mapping rows) :
    (kv.2.map (fun a => pyLower (pyStrip a))).Nodup :=
  ((buildLoop_goodM (rows.drop 1)).2 kv h).2.2.1

theorem C1_area_dedup_witness :
    (("A PS", ["Village1"]) : String × List String) ∈ build_mapping exRows
      ∧ (((("A PS", ["Village1"]) : String × List String)).2.map
          (fun a => pyLower (pyStrip a))).Nodup :=
  ⟨by decide, C1_area_dedup exRows ("A PS", ["Village1"]) (by decide)⟩

/-- C2: the keys of the Mapping appear in first-occurrence order of the
station names among the data rows (after the skipped header row) —
`insertAll [] …` appends each station name at its first occurrence and never
reorders — and each station's area list is the first-occurrence fold
`dedupInto []` of the stream of areas attributed to it, in row order. -/
theorem C2_order_preservation (rows : List Row) :
    mkeys (build_mapping rows)
        = insertAll [] ((rows.drop 1).filterMap stationOf)
      ∧ ∀ k, mget (build_mapping rows) k =
          if k ∈ (rows.drop 1).filterMap stationOf
          then some (dedupInto [] (attrib Option.none k (rows.drop 1)))
          else none :=
  ⟨buildLoop_keys (rows.drop 1), fun k => buildLoop_mget (rows.drop 1) k⟩

/-- C3: on the spec's worked example (header row, then
`(_,_,_,"A PS","Village1")`, `(_,_,_,None,"village1 ")`,
`(_,_,_,"B PS","Village2")`), the loop returns exactly
`{"A PS": ["Village1"], "B PS": ["Village2"]}`: the second data row is
deduplicated against the first despite case and trailing whitespace. -/
theorem C3_worked_example :
    build_mapping exRows = [("A PS", ["Village1"]), ("B PS", ["Village2"])] := by
  decide

/-- C4: once a data row carries a station name (a string non-empty after
trimming), the Mapping has an entry under the trimmed name; when no area row
is attributed to that station the entry is the empty list — a present key,
never an absent one. -/
theorem C4_station_key_exists (rows : List Row) (r : Row) (k : String)
    (hr : r ∈ rows.drop 1) (hk : stationOf r = some k) :
    ∃ l, mget (build_mapping rows) k = some l
      ∧ (attrib Option.none k (rows.drop 1) = [] → l = []) := by
  have hmem : k ∈ (rows.drop 1).filterMap stationOf :=
    List.mem_filterMap.mpr ⟨r, hr, hk⟩
  refine ⟨dedupInto [] (attrib Option.none k (rows.drop 1)), ?_, ?_⟩
  · unfold build_mapping
    rw [buildLoop_mget, if_pos hmem]
  · intro he
    rw [he]
    rfl

theorem C4_station_key_exists_witness :
    exRow1 ∈ exRows.drop 1 ∧ stationOf exRow1 = some "A PS"
      ∧ ∃ l, mget (build_mapping exRows) "A PS" = some l
          ∧ (attrib Option.none "A PS" (exRows.drop 1) = [] → l = []) :=
  ⟨by decide, by decide,
    C4_station_key_exists exRows exRow1 "A PS" (by decide) (by decide)⟩

/-- C5: data rows carrying no station name that precede the first row with a
station name contribute nothing: the loop over them leaves the initial state
unchanged, so the run equals the run on the remaining rows alone (no key, no
error, nothing). -/
theorem C5_leading_rows_dropped (pre rest : List Row)
    (h : ∀ r ∈ pre, stationOf r = none) :
    buildLoop (pre ++ rest) = buildLoop rest := by
  unfold buildLoop
  rw [List.foldl_append, foldl_skip_nostation pre h]

theorem C5_leading_rows_dropped_witness :
    (∀ r ∈ [exRow2], stationOf r = none)
      ∧ buildLoop ([exRow2] ++ [exRow1]) = buildLoop [exRow1] :=
  ⟨by decide, C5_leading_rows_dropped [exRow2] [exRow1] (by decide)⟩

/-- C6: every key of the Mapping returned by `build_mapping` is non-empty
and equal to its own trimmed form, and so is every stored area value. -/
theorem C6_trimmed_nonempty (rows : List Row) (kv : String × List String)
    (h : kv ∈ build_mapping rows) :
    kv.1 ≠ "" ∧ pyStrip kv.1 = kv.1 ∧ ∀ a ∈ kv.2, a ≠ "" ∧ pyStrip a = a := by
  obtain ⟨h1, h2, _, h4⟩ := (buildLoop_goodM (rows.drop 1)).2 kv h
  exact ⟨h1, h2, h4⟩

theorem C6_trimmed_nonempty_witness :
    (("B PS", ["Village2"]) : String × List String) ∈ build_mapping exRows
      ∧ ("B PS" ≠ "" ∧ pyStrip "B PS" = "B PS"
          ∧ ∀ a ∈ (["Village2"] : List String), a ≠ "" ∧ pyStrip a = a) :=
  ⟨by decide, C6_trimmed_nonempty exRows ("B PS", ["Village2"]) (by decide)⟩

/-- C7, counterexample to the claim as stated: a row whose station-name cell
is missing (`None`) but whose area cell is a valid string is *not* skipped —
it changes the Mapping built so far (its area is recorded under the current
station), contradicting "the Mapping built so far is unaffected by the
skipped row" for rows with a missing station-name cell. -/
theorem C7_counterexample :
    build_mapping [exHeader, exRow1, exRowCont]
      ≠ build_mapping [exHeader, exRow1] := by
  decide

/-- C7, amended: the builder never fails, and a row whose station-name cell
and area cell are both unusable (missing, non-text, or blank after trimming)
is silently skipped, leaving the current station and the Mapping built so
far unchanged.  (Rows with a usable station or area cell may well update the
Mapping, as the other clauses of the spec describe.) -/
theorem C7_malformed_rows_skipped (st : Option String × Mapping) (r : Row)
    (h1 : stationOf r = none) (h2 : areaOf r = none) :
    processRow st r = st := by
  obtain ⟨c, m⟩ := st
  rw [processRow_eq]
  have hfst : (pStep c m r).1 = c := by
    rw [pStep_fst, updateCur_nostation h1]
  have hsnd : (pStep c m r).2 = m := by
    rw [pStep_snd, updateCur_nostation h1]
    cases c with
    | none =>
      show stationPhase m (stationOf r) = m
      rw [h1]
      rfl
    | some ps =>
      show areaPhase (stationPhase m (stationOf r)) ps (areaOf r) = m
      rw [h1, h2]
      rfl
  exact Prod.ext_iff.mpr ⟨hfst, hsnd⟩

theorem C7_malformed_rows_skipped_witness :
    processRow (some "A PS", [("A PS", [])])
        ⟨Cell.none, Cell.none, Cell.none, Cell.none, Cell.none⟩
      = (some "A PS", [("A PS", [])]) :=
  C7_malformed_rows_skipped (some "A PS", [("A PS", [])])
    ⟨Cell.none, Cell.none, Cell.none, Cell.none, Cell.none⟩ rfl rfl

/-- C8: the builder is deterministic — it is a pure function of its input
rows, so two runs on identical row sequences return equal Mappings (same
keys in the same order, same area lists). -/
theorem C8_deterministic (rows1 rows2 : List Row) (h : rows1 = rows2) :
    build_mapping rows1 = build_mapping rows2 := by
  rw [h]

theorem C8_deterministic_witness :
    exRows = exRows ∧ build_mapping exRows = build_mapping exRows :=
  ⟨rfl, C8_deterministic exRows exRows rfl⟩

/-- C9: when a station whose key is already present recurs in later rows,
no new key is created: the key list only grows at its end (`newKeys`), the
existing key is not in the appended part (so its position — that of its
first occurrence — is unchanged), and the station's final area list is the
dedup fold of the later attributed areas into the entry recorded so far,
deduplicating against every area already stored. -/
theorem C9_station_recurrence (rows1 rows2 : List Row) (k : String)
    (h : k ∈ mkeys (buildLoop rows1).2) :
    ∃ newKeys,
      mkeys (rows2.foldl processRow (buildLoop rows1)).2
          = mkeys (buildLoop rows1).2 ++ newKeys
      ∧ k ∉ newKeys
      ∧ mget (rows2.foldl processRow (buildLoop rows1)).2 k
          = some (dedupInto ((mget (buildLoop rows1).2 k).getD [])
              (attrib (buildLoop rows1).1 k rows2)) := by
  have hInv : CurInv (buildLoop rows1) := buildLoop_curInv rows1
  have hnd : (mkeys (buildLoop rows1).2).Nodup := (buildLoop_goodM rows1).1
  obtain ⟨-, hkeys, hmget⟩ :=
    foldl_spec rows2 (buildLoop rows1).1 (buildLoop rows1).2
      (fun k hk => hInv k hk)
  rcases insertAll_suffix (rows2.filterMap stationOf)
      (mkeys (buildLoop rows1).2) with ⟨t, ht⟩
  have hfold : rows2.foldl processRow (buildLoop rows1)
      = rows2.foldl processRow ((buildLoop rows1).1, (buildLoop rows1).2) := rfl
  refine ⟨t, ?_, ?_, ?_⟩
  · rw [hfold, hkeys, ht]
  · have hnd2 : (mkeys (buildLoop rows1).2 ++ t).Nodup := by
      rw [← ht]
      exact insertAll_nodup _ _ hnd
    rcases List.nodup_append.mp hnd2 with ⟨-, -, hdisj⟩
    exact fun hkt => hdisj h hkt
  · rw [hfold, hmget k, if_pos (Or.inl h)]

theorem C9_station_recurrence_witness :
    "A PS" ∈ mkeys (buildLoop [exRow1]).2
      ∧ ∃ newKeys,
          mkeys ([exRow3].foldl processRow (buildLoop [exRow1])).2
              = mkeys (buildLoop [exRow1]).2 ++ newKeys
          ∧ "A PS" ∉ newKeys
          ∧ mget ([exRow3].foldl processRow (buildLoop [exRow1])).2 "A PS"
              = some (dedupInto ((mget (buildLoop [exRow1]).2 "A PS").getD [])
                  (attrib (buildLoop [exRow1]).1 "A PS" [exRow3])) :=
  ⟨by decide, C9_station_recurrence [exRow1] [exRow3] "A PS" (by decide)⟩

/-- C10: a station-name cell that is present but not text (e.g. a number)
never changes the current station; the row is a continuation row, and its
area value, if a non-blank string, is recorded (modulo the case-insensitive
dedup) under the most recently seen station.  (The hypothesis `hck` is the
loop invariant that the current station is a key of the mapping; it holds in
every reachable state and matches the source, where `mapping[current_ps]`
always finds its key.) -/
theorem C10_nontext_station_continuation (c : Option String) (m : Mapping)
    (r : Row) (hcell : r.ps_name = Cell.other)
    (hck : ∀ k, c = some k → k ∈ mkeys m) :
    (processRow (c, m) r).1 = c ∧
    (processRow (c, m) r).2 =
      match c, areaOf r with
      | some k, some a =>
          if ((mget m k).getD []).any
              (fun b => pyLower (pyStrip b) == pyLower a) then m
          else mappend m k a
      | _, _ => m := by
  have hs : stationOf r = none := by simp [stationOf, hcell]
  constructor
  · rw [processRow_eq, pStep_fst, updateCur_nostation hs]
  · rw [processRow_eq, pStep_snd, updateCur_nostation hs]
    cases c with
    | none =>
      show stationPhase m (stationOf r) = m
      rw [hs]
      rfl
    | some k =>
      show areaPhase (stationPhase m (stationOf r)) k (areaOf r) = _
      rw [hs]
      cases ha : areaOf r with
      | none => rfl
      | some a => rfl

theorem C10_nontext_station_continuation_witness :
    exRowOther.ps_name = Cell.other
      ∧ (∀ k, (some "A PS" : Option String) = some k
          → k ∈ mkeys [("A PS", ([] : List String))])
      ∧ (processRow (some "A PS", [("A PS", [])]) exRowOther).1 = some "A PS"
      ∧ (processRow (some "A PS", [("A PS", [])]) exRowOther).2 =
          match (some "A PS" : Option String), areaOf exRowOther with
          | some k, some a =>
              if ((mget [("A PS", ([] : List String))] k).getD []).any
                  (fun b => pyLower (pyStrip b) == pyLower a)
              then [("A PS", ([] : List String))]
              else mappend [("A PS", ([] : List String))] k a
          | _, _ => [("A PS", ([] : List String))] :=
  ⟨rfl,
   fun k hk => by cases hk; decide,
   C10_nontext_station_continuation (some "A PS") [("A PS", [])] exRowOther
     rfl (fun k hk => by cases hk; decide)⟩
